import Mathlib

/-!
Shallow embedding of the git-wrapped25 core:
  src/app/utils/useGitAPI.ts        (processContributionData, processRepoLanguages,
                                     fetchTopLanguages)
  src/app/components/Contribution.tsx (the stats useMemo, handleShareToPNG,
                                       the cumulative-series construction)

JavaScript plain objects used as string-keyed dictionaries
(Record<string, number>) are embedded as association lists.  Property
assignment `obj[k] = v` updates the value in place when the key exists and
appends the key otherwise; `Object.entries` / `Object.values` enumerate in
key insertion order.  This is faithful to the ECMAScript ordinary-object
property order for the keys that actually occur here (ISO date strings and
language names, which are never array-index strings).

Numbers: every quantity in the modelled code paths is a non-negative
integer (contribution counts, byte sizes, repo counts), embedded as Nat.
The one floating-point expression, `(total / values.length).toFixed(1)` in
the stats useMemo, is embedded over ℚ with explicit round-half-up to one
decimal; its division by zero on the empty map (NaN or Infinity in JS,
i.e. no finite value) is embedded as `none`, as is `Math.max()` of an
empty argument list (-Infinity in JS).
-/

namespace GitWrapped

/-- Association-list read of a JS object property: first binding wins
(bindings are unique by construction of jsSet). -/
def jsGet (m : List (String × Nat)) (k : String) : Option Nat :=
  match m with
  | [] => none
  | (k', v) :: rest => if k' = k then some v else jsGet rest k

/-- JS property assignment `obj[k] = v`: overwrite in place when `k` is
present, append `(k, v)` otherwise (insertion order preserved). -/
def jsSet (m : List (String × Nat)) (k : String) (v : Nat) : List (String × Nat) :=
  match m with
  | [] => [(k, v)]
  | (k', v') :: rest => if k' = k then (k', v) :: rest else (k', v') :: jsSet rest k v

/-- Key list of the embedded JS object, in insertion order. -/
def keys (m : List (String × Nat)) : List String := m.map Prod.fst

/-- Append a key if it is not yet present; models how one `obj[k] = v`
assignment extends the key list. -/
def pushNew (acc : List String) (k : String) : List String :=
  if k ∈ acc then acc else acc ++ [k]

/-- The subsequence of first occurrences of a list of names, in order of
first encounter. -/
def firstOccur (names : List String) : List String := names.foldl pushNew []

/-- Stable insertion of one entry into a list already sorted by descending
second component: the new element goes after strictly larger entries and
before equal or smaller ones. -/
def insertDesc (x : String × Nat) : List (String × Nat) → List (String × Nat)
  | [] => [x]
  | y :: ys => if x.2 < y.2 then y :: insertDesc x ys else x :: y :: ys

/-- Stable sort by descending second component.  `Array.prototype.sort`
with comparator `(a, b) => b[1] - a[1]` is a stable sort (ES2019), and a
stable sort for a fixed total preorder has a unique result, so this
insertion sort is observationally the same function. -/
def sortDesc : List (String × Nat) → List (String × Nat)
  | [] => []
  | x :: xs => insertDesc x (sortDesc xs)

/-! Data shapes of useGitAPI.ts. -/

structure ContributionDay where
  contributionCount : Nat
  date : String
deriving DecidableEq

structure ContributionWeek where
  contributionDays : List ContributionDay
deriving DecidableEq

structure ContributionData where
  totalContributions : Nat
  weeks : List ContributionWeek
deriving DecidableEq

structure ContributionSummary where
  totalContributions : Nat
  contributionMap : List (String × Nat)
deriving DecidableEq

/-- Body of the inner forEach of processContributionData:
`contributionMap[day.date] = day.contributionCount`. -/
def contribStep (m : List (String × Nat)) (day : ContributionDay) : List (String × Nat) :=
  jsSet m day.date day.contributionCount

/-- Embedding of processContributionData (useGitAPI.ts, lines 92-105):
two nested forEach loops assigning `contributionMap[day.date] =
day.contributionCount`, then the pair with the upstream total passed
through unchanged. -/
def processContributionData (data : ContributionData) : ContributionSummary :=
  { totalContributions := data.totalContributions
    contributionMap :=
      data.weeks.foldl
        (fun m week => week.contributionDays.foldl contribStep m) [] }

/-- All dates of the raw response, in traversal order. -/
def allDates (data : ContributionData) : List String :=
  ((data.weeks.map ContributionWeek.contributionDays).flatten).map ContributionDay.date

structure LangNode where
  name : String
  color : String
deriving DecidableEq

structure LangEdge where
  size : Nat
  node : LangNode
deriving DecidableEq

structure RepoLanguagesField where
  edges : List LangEdge
deriving DecidableEq

structure StargazersField where
  totalCount : Nat
deriving DecidableEq

structure GitHubRepo where
  name : String
  languages : RepoLanguagesField
  stargazers : StargazersField
deriving DecidableEq

structure RepoLanguage where
  name : String
  size : Nat
deriving DecidableEq

structure RepoDetail where
  name : String
  stars : Nat
  languages : List String
deriving DecidableEq

/-- The per-repo `languages` array built inside processRepoLanguages:
`repo.languages.edges.map(lang => ({name: lang.node.name, size: lang.size}))`. -/
def repoLanguagesOf (repo : GitHubRepo) : List RepoLanguage :=
  repo.languages.edges.map (fun lang => ⟨lang.node.name, lang.size⟩)

/-- Body of the language forEach of processRepoLanguages:
`languageMap[lang.name] = (languageMap[lang.name] || 0) + lang.size`
(`x || 0` on a missing property reads as 0, matching getD 0 since stored
sizes are the non-negative integers GitHub reports). -/
def langStep (m : List (String × Nat)) (lang : RepoLanguage) : List (String × Nat) :=
  jsSet m lang.name ((jsGet m lang.name).getD 0 + lang.size)

/-- The languageMap accumulation of processRepoLanguages (useGitAPI.ts,
lines 157-175): `languageMap[lang.name] = (languageMap[lang.name] || 0) +
lang.size` over every language of every repository. -/
def languageMapOf (repositories : List GitHubRepo) : List (String × Nat) :=
  repositories.foldl
    (fun m repo => (repoLanguagesOf repo).foldl langStep m) []

structure RepoProcessResult where
  topLanguages : List RepoLanguage
  repoDetails : List RepoDetail
deriving DecidableEq

/-- Embedding of processRepoLanguages (useGitAPI.ts, lines 156-185):
accumulate languageMap and repoDetails, then
`Object.entries(languageMap).sort((a, b) => b[1] - a[1]).map(([name,
size]) => ({name, size}))`. -/
def processRepoLanguages (repositories : List GitHubRepo) : RepoProcessResult :=
  { topLanguages := (sortDesc (languageMapOf repositories)).map (fun p => ⟨p.1, p.2⟩)
    repoDetails :=
      repositories.map (fun repo =>
        ⟨repo.name, repo.stargazers.totalCount, (repoLanguagesOf repo).map RepoLanguage.name⟩) }

/-- All language names over every repository's edges, in traversal
order. -/
def allLanguageNames (repositories : List GitHubRepo) : List String :=
  ((repositories.map (fun r => (repoLanguagesOf r).map RepoLanguage.name)).flatten)

/-- All per-repo language records in accumulation order: the flat sequence
actually traversed by the languageMap accumulation. -/
def allRepoLanguages (repositories : List GitHubRepo) : List RepoLanguage :=
  (repositories.map repoLanguagesOf).flatten

/-- Body of the repos forEach of fetchTopLanguages.  A repository's
`language` field is nullable; the guard `if (repo.language)` skips null
and the empty string (both falsy), then runs
`languageCount[repo.language] = (languageCount[repo.language] || 0) + 1`. -/
def countStep (m : List (String × Nat)) (lang : Option String) : List (String × Nat) :=
  match lang with
  | some s => if s = "" then m else jsSet m s ((jsGet m s).getD 0 + 1)
  | none => m

/-- The languageCount accumulation of fetchTopLanguages (useGitAPI.ts,
lines 195-201). -/
def languageCountOf (repos : List (Option String)) : List (String × Nat) :=
  repos.foldl countStep []

/-- Embedding of the response-processing part of fetchTopLanguages
(useGitAPI.ts, lines 188-209): count repos per primary language, sort the
entries by descending count, `slice(0, 5)`. -/
def fetchTopLanguages (repos : List (Option String)) : List (String × Nat) :=
  (sortDesc (languageCountOf repos)).take 5

/-- Number of repositories in the listing whose primary language is
exactly `k`. -/
def occurrences (k : String) (repos : List (Option String)) : Nat :=
  repos.countP (fun r => decide (r = some k))

/-! Contribution.tsx definitions. -/

/-- Result of the stats useMemo.  averageDaily and maxDaily are Options:
`none` embeds the non-finite JS results (NaN or Infinity from division by
zero, -Infinity from `Math.max()` with no arguments). -/
structure Stats where
  totalContributions : Nat
  averageDaily : Option ℚ
  daysWithContributions : Nat
  maxDaily : Option Nat
deriving DecidableEq

/-- JS `Number(x.toFixed(1))` for a non-negative rational: round half up
to one decimal. -/
def toFixed1 (q : ℚ) : ℚ := (⌊q * 10 + 1 / 2⌋ : ℚ) / 10

/-- Embedding of the stats useMemo in ContributionDashboard
(Contribution.tsx, lines 119-129), the spec's computeStats:
`Object.values(contributions)` then total / length rounded to one
decimal, the count of positive values, and `Math.max(...values)`. -/
def computeStats (contributions : List (String × Nat)) (totalContributions : Nat) : Stats :=
  let contributionValues := contributions.map Prod.snd
  { totalContributions := totalContributions
    averageDaily :=
      if contributionValues.length = 0 then none
      else some (toFixed1 ((totalContributions : ℚ) / (contributionValues.length : ℚ)))
    daysWithContributions := (contributionValues.filter (fun c => decide (0 < c))).length
    maxDaily := contributionValues.max? }

/-- One point of the date-ascending daily series (processedContributions). -/
structure DayEntry where
  date : String
  contributions : Nat
deriving DecidableEq

/-- JS `Array.prototype.map((item, index) => ...)` with a running index. -/
def mapWithIndexFrom (f : Nat → α → β) : Nat → List α → List β
  | _, [] => []
  | i, a :: as => f i a :: mapWithIndexFrom f (i + 1) as

/-- Embedding of the cumulative-series construction in
ContributionDashboard (Contribution.tsx, lines 244-249):
`processedContributions.map((item, index) => ({...item, cumulative:
processedContributions.slice(0, index + 1).reduce((sum, curr) => sum +
curr.contributions, 0)}))`.  A point is the pair of the original entry and
its cumulative value. -/
def buildCumulativeSeries (l : List DayEntry) : List (DayEntry × Nat) :=
  mapWithIndexFrom
    (fun index item =>
      (item, (l.take (index + 1)).foldl (fun sum curr => sum + curr.contributions) 0))
    0 l

/-- The O(n) running-sum construction of the cumulative series, modelled
from the spec: carry the running total through one left-to-right pass. -/
def runningCumulativeFrom (acc : Nat) : List DayEntry → List (DayEntry × Nat)
  | [] => []
  | x :: xs => (x, acc + x.contributions) :: runningCumulativeFrom (acc + x.contributions) xs

/-- Modelled from the spec: the preferred O(n) running-sum implementation
of buildCumulativeSeries. -/
def runningCumulativeSeries (l : List DayEntry) : List (DayEntry × Nat) :=
  runningCumulativeFrom 0 l

/-- Environment of one handleShareToPNG run: whether
document.getElementById finds the dashboard and share elements, and
whether html2canvas resolves (rasterization succeeds) or rejects. -/
structure ExportEnv where
  dashboardPresent : Bool
  sharePresent : Bool
  rasterizeOk : Bool
deriving DecidableEq

/-- Observable outcome of one handleShareToPNG run: the final value of the
isDownloading flag, and the filename of the triggered download, if any. -/
structure ExportResult where
  isDownloading : Bool
  download : Option String
deriving DecidableEq

/-- The download filename assigned in handleShareToPNG
(Contribution.tsx, line 100): the template literal
username-github-wrapped-2025.png with the year hardcoded. -/
def exportFilename (username : String) : String :=
  username ++ "-github-wrapped-2025.png"

/-- Filename the spec describes, with the year interpolated:
username-github-wrapped-year.png. -/
def claimedExportFilename (username : String) (year : Nat) : String :=
  username ++ "-github-wrapped-" ++ toString year ++ ".png"

/-- Embedding of handleShareToPNG (Contribution.tsx, lines 74-108).
setIsDownloading(true) runs first; when either element is missing the
function returns before entering the try block, so the finally clause
never runs and the flag stays true.  Otherwise the try/catch/finally
always ends with setIsDownloading(false), and only a successful
rasterization triggers link.click() with the hardcoded filename. -/
def handleShareToPNG (username : String) (env : ExportEnv) : ExportResult :=
  if !env.dashboardPresent || !env.sharePresent then
    { isDownloading := true, download := none }
  else if env.rasterizeOk then
    { isDownloading := false, download := some (exportFilename username) }
  else
    { isDownloading := false, download := none }

/-! Lemmas about the JS object embedding. -/

theorem keys_jsSet (m : List (String × Nat)) (k : String) (v : Nat) :
    keys (jsSet m k v) = pushNew (keys m) k := by
  induction m with
  | nil => simp [jsSet, keys, pushNew]
  | cons a rest ih =>
    obtain ⟨k', v'⟩ := a
    by_cases hk : k' = k
    · subst hk
      simp [jsSet, keys, pushNew]
    · simp only [jsSet, if_neg hk, keys, List.map_cons, pushNew] at ih ⊢
      rw [ih]
      by_cases hmem : k ∈ rest.map Prod.fst
      · simp [pushNew, hmem, Ne.symm hk]
      · simp [pushNew, hmem, Ne.symm hk]

theorem jsGet_jsSet (m : List (String × Nat)) (k : String) (v : Nat) (k' : String) :
    jsGet (jsSet m k v) k' = if k = k' then some v else jsGet m k' := by
  induction m with
  | nil =>
    simp [jsSet, jsGet]
  | cons a rest ih =>
    obtain ⟨a1, a2⟩ := a
    by_cases ha : a1 = k
    · subst ha
      by_cases h' : a1 = k'
      · subst h'
        simp [jsSet, jsGet]
      · simp [jsSet, jsGet, h']
    · by_cases h' : a1 = k'
      · subst h'
        have : ¬ k = a1 := fun h => ha h.symm
        simp [jsSet, jsGet, ha, this]
      · simp [jsSet, jsGet, ha, h', ih]

theorem sum_jsSet_add (m : List (String × Nat)) (k : String) (v : Nat) :
    ((jsSet m k ((jsGet m k).getD 0 + v)).map Prod.snd).sum
      = (m.map Prod.snd).sum + v := by
  induction m with
  | nil => simp [jsSet, jsGet]
  | cons a rest ih =>
    obtain ⟨a1, a2⟩ := a
    by_cases ha : a1 = k
    · subst ha
      simp [jsSet, jsGet]
      omega
    · simp only [jsSet, jsGet, if_neg ha, List.map_cons, List.sum_cons] at ih ⊢
      rw [ih]
      omega

theorem mem_pushNew (acc : List String) (a k : String) :
    k ∈ pushNew acc a ↔ k ∈ acc ∨ k = a := by
  by_cases h : a ∈ acc
  · simp only [pushNew, if_pos h]
    constructor
    · exact fun hk => Or.inl hk
    · rintro (hk | rfl)
      · exact hk
      · exact h
  · simp [pushNew, if_neg h]

theorem nodup_pushNew (acc : List String) (a : String) (h : acc.Nodup) :
    (pushNew acc a).Nodup := by
  by_cases hm : a ∈ acc
  · simpa [pushNew, hm] using h
  · simp [pushNew, hm, List.nodup_append, h, List.Disjoint]
    intro x hx hxa
    exact hm (hxa ▸ hx)

theorem mem_foldl_pushNew (names : List String) :
    ∀ (acc : List String) (k : String),
      k ∈ names.foldl pushNew acc ↔ k ∈ acc ∨ k ∈ names := by
  induction names with
  | nil => simp
  | cons a rest ih =>
    intro acc k
    simp only [List.foldl_cons, ih, mem_pushNew, List.mem_cons]
    tauto

theorem nodup_foldl_pushNew (names : List String) :
    ∀ acc : List String, acc.Nodup → (names.foldl pushNew acc).Nodup := by
  induction names with
  | nil => exact fun _ h => h
  | cons a rest ih =>
    intro acc hacc
    exact ih (pushNew acc a) (nodup_pushNew acc a hacc)

theorem foldl_pushNew_eq_append (names : List String) :
    ∀ acc : List String, (∀ n ∈ names, n ∉ acc) → names.Nodup →
      names.foldl pushNew acc = acc ++ names := by
  induction names with
  | nil => simp
  | cons a rest ih =>
    intro acc hdisj hnd
    have ha : a ∉ acc := hdisj a (List.mem_cons_self a rest)
    have hstep : pushNew acc a = acc ++ [a] := by simp [pushNew, ha]
    rw [List.foldl_cons, hstep, ih (acc ++ [a])]
    · simp
    · intro n hn
      simp only [List.mem_append, List.mem_singleton]
      rintro (hnacc | rfl)
      · exact hdisj n (List.mem_cons_of_mem a hn) hnacc
      · exact (List.nodup_cons.mp hnd).1 hn
    · exact (List.nodup_cons.mp hnd).2

theorem keys_foldl_jsSet {α : Type} (κ : α → String) (vf : List (String × Nat) → α → Nat)
    (ps : List α) :
    ∀ m : List (String × Nat),
      keys (ps.foldl (fun m a => jsSet m (κ a) (vf m a)) m)
        = (ps.map κ).foldl pushNew (keys m) := by
  induction ps with
  | nil => intro m; rfl
  | cons a rest ih =>
    intro m
    simp only [List.foldl_cons, List.map_cons]
    rw [ih, keys_jsSet]

theorem foldl_foldl_flatten {α β : Type} (f : β → α → β) (L : List (List α)) :
    ∀ b : β, L.foldl (fun b l => l.foldl f b) b = L.flatten.foldl f b := by
  induction L with
  | nil => intro b; rfl
  | cons l ls ih =>
    intro b
    simp only [List.foldl_cons, List.flatten_cons, List.foldl_append]
    exact ih (l.foldl f b)

/-! Lemmas about the stable descending sort. -/

theorem perm_insertDesc (x : String × Nat) (l : List (String × Nat)) :
    (insertDesc x l).Perm (x :: l) := by
  induction l with
  | nil => exact List.Perm.refl _
  | cons y ys ih =>
    by_cases h : x.2 < y.2
    · simp only [insertDesc, if_pos h]
      exact (ih.cons y).trans (List.Perm.swap x y ys)
    · simp [insertDesc, if_neg h]

theorem perm_sortDesc (l : List (String × Nat)) : (sortDesc l).Perm l := by
  induction l with
  | nil => exact List.Perm.refl _
  | cons x xs ih =>
    exact (perm_insertDesc x (sortDesc xs)).trans (ih.cons x)

theorem sorted_insertDesc (x : String × Nat) (l : List (String × Nat))
    (h : l.Pairwise (fun a b => b.2 ≤ a.2)) :
    (insertDesc x l).Pairwise (fun a b => b.2 ≤ a.2) := by
  induction l with
  | nil => simp [insertDesc]
  | cons y ys ih =>
    rw [List.pairwise_cons] at h
    by_cases hlt : x.2 < y.2
    · simp only [insertDesc, if_pos hlt]
      rw [List.pairwise_cons]
      refine ⟨?_, ih h.2⟩
      intro a ha
      rcases List.mem_cons.mp ((perm_insertDesc x ys).mem_iff.mp ha) with h1 | h2
      · rw [h1]; exact Nat.le_of_lt hlt
      · exact h.1 a h2
    · simp only [insertDesc, if_neg hlt]
      rw [List.pairwise_cons]
      refine ⟨?_, List.pairwise_cons.mpr h⟩
      intro a ha
      rcases List.mem_cons.mp ha with rfl | hmem
      · exact Nat.le_of_not_lt hlt
      · exact Nat.le_trans (h.1 a hmem) (Nat.le_of_not_lt hlt)

theorem sorted_sortDesc (l : List (String × Nat)) :
    (sortDesc l).Pairwise (fun a b => b.2 ≤ a.2) := by
  induction l with
  | nil => simp [sortDesc]
  | cons x xs ih => exact sorted_insertDesc x (sortDesc xs) ih

theorem filter_insertDesc (x : String × Nat) (l : List (String × Nat)) (s : Nat) :
    (insertDesc x l).filter (fun p => p.2 == s)
      = (x :: l).filter (fun p => p.2 == s) := by
  induction l with
  | nil => rfl
  | cons y ys ih =>
    by_cases hlt : x.2 < y.2
    · simp only [insertDesc, if_pos hlt]
      by_cases hy : y.2 = s
      · have hx : ¬ x.2 = s := by omega
        simp [List.filter_cons, hy, hx, ih]
      · simp [List.filter_cons, hy, ih]
    · simp [insertDesc, if_neg hlt]

theorem filter_sortDesc (l : List (String × Nat)) (s : Nat) :
    (sortDesc l).filter (fun p => p.2 == s) = l.filter (fun p => p.2 == s) := by
  induction l with
  | nil => rfl
  | cons x xs ih =>
    show (insertDesc x (sortDesc xs)).filter (fun p => p.2 == s) = _
    rw [filter_insertDesc]
    by_cases hx : x.2 = s
    · simp [List.filter_cons, hx, ih]
    · simp [List.filter_cons, hx, ih]

/-! Lemmas flattening the nested accumulation loops. -/

theorem contributionMap_eq_flat (data : ContributionData) :
    (processContributionData data).contributionMap
      = ((data.weeks.map ContributionWeek.contributionDays).flatten).foldl contribStep [] := by
  show data.weeks.foldl (fun m week => week.contributionDays.foldl contribStep m) [] = _
  rw [← foldl_foldl_flatten, List.foldl_map]

theorem languageMapOf_eq_flat (repositories : List GitHubRepo) :
    languageMapOf repositories = (allRepoLanguages repositories).foldl langStep [] := by
  show repositories.foldl (fun m repo => (repoLanguagesOf repo).foldl langStep m) [] = _
  rw [allRepoLanguages, ← foldl_foldl_flatten, List.foldl_map]

/-! Lemmas about the fetchTopLanguages counting loop. -/

theorem occurrences_cons (k : String) (r : Option String) (rest : List (Option String)) :
    occurrences k (r :: rest) = occurrences k rest + (if r = some k then 1 else 0) := by
  simp [occurrences, List.countP_cons]

theorem countFold_empty_key (ps : List (Option String)) :
    ∀ m : List (String × Nat), jsGet (ps.foldl countStep m) "" = jsGet m "" := by
  induction ps with
  | nil => intro m; rfl
  | cons r rest ih =>
    intro m
    rw [List.foldl_cons, ih]
    cases r with
    | none => rfl
    | some s =>
      show jsGet (if s = "" then m else jsSet m s ((jsGet m s).getD 0 + 1)) "" = jsGet m ""
      by_cases hs : s = ""
      · rw [if_pos hs]
      · rw [if_neg hs, jsGet_jsSet, if_neg hs]

theorem countFold_get (k : String) (hk : ¬ k = "") (ps : List (Option String)) :
    ∀ m : List (String × Nat),
      jsGet (ps.foldl countStep m) k
        = if occurrences k ps = 0 then jsGet m k
          else some ((jsGet m k).getD 0 + occurrences k ps) := by
  induction ps with
  | nil => intro m; simp [occurrences]
  | cons r rest ih =>
    intro m
    rw [List.foldl_cons, ih, occurrences_cons]
    cases r with
    | none => simp [countStep]
    | some s =>
      show (if occurrences k rest = 0 then jsGet (countStep m (some s)) k
            else some ((jsGet (countStep m (some s)) k).getD 0 + occurrences k rest)) = _
      by_cases hs : s = ""
      · have h2 : ¬ ("" = k) := fun h => hk h.symm
        simp [countStep, hs, h2]
      · have hstep : countStep m (some s) = jsSet m s ((jsGet m s).getD 0 + 1) := by
          simp [countStep, hs]
        rw [hstep, jsGet_jsSet]
        by_cases hsk : s = k
        · subst hsk
          by_cases h0 : occurrences s rest = 0
          · simp [h0]
          · simp [h0]
            omega
        · have h1 : ¬ (some s = some k) := by simp [hsk]
          simp [hsk, h1]

/-! Lemmas about the indexed map and the running sum. -/

theorem map_fst_mapWithIndexFrom {α β : Type} (F : Nat → β) (l : List α) :
    ∀ j : Nat, (mapWithIndexFrom (fun i item => (item, F i)) j l).map Prod.fst = l := by
  induction l with
  | nil => intro j; rfl
  | cons a as ih =>
    intro j
    simp only [mapWithIndexFrom, List.map_cons]
    rw [ih]

theorem map_snd_mapWithIndexFrom {α β : Type} (F : Nat → β) (l : List α) :
    ∀ j : Nat,
      (mapWithIndexFrom (fun i item => (item, F i)) j l).map Prod.snd
        = (List.range l.length).map (fun i => F (j + i)) := by
  induction l with
  | nil => intro j; rfl
  | cons a as ih =>
    intro j
    simp only [mapWithIndexFrom, List.map_cons, List.length_cons]
    rw [ih (j + 1), List.range_succ_eq_map, List.map_cons, List.map_map]
    refine List.cons_eq_cons.mpr ⟨by simp, ?_⟩
    refine List.map_congr_left ?_
    intro i _
    show F (j + 1 + i) = F (j + Nat.succ i)
    exact congrArg F (by omega)

theorem foldl_add_contributions (ds : List DayEntry) :
    ∀ a : Nat,
      ds.foldl (fun sum curr => sum + curr.contributions) a
        = a + (ds.map DayEntry.contributions).sum := by
  induction ds with
  | nil => intro a; simp
  | cons d rest ih =>
    intro a
    simp only [List.foldl_cons, List.map_cons, List.sum_cons]
    rw [ih]
    omega

theorem map_fst_runningCumulativeFrom (l : List DayEntry) :
    ∀ acc : Nat, (runningCumulativeFrom acc l).map Prod.fst = l := by
  induction l with
  | nil => intro acc; rfl
  | cons x xs ih =>
    intro acc
    simp only [runningCumulativeFrom, List.map_cons]
    rw [ih]

theorem map_snd_runningCumulativeFrom (l : List DayEntry) :
    ∀ acc : Nat,
      (runningCumulativeFrom acc l).map Prod.snd
        = (List.range l.length).map
            (fun i => acc + ((l.take (i + 1)).map DayEntry.contributions).sum) := by
  induction l with
  | nil => intro acc; rfl
  | cons x xs ih =>
    intro acc
    simp only [runningCumulativeFrom, List.map_cons, List.length_cons]
    rw [ih (acc + x.contributions), List.range_succ_eq_map, List.map_cons, List.map_map]
    refine List.cons_eq_cons.mpr ⟨by simp, ?_⟩
    refine List.map_congr_left ?_
    intro i _
    show acc + x.contributions + ((xs.take (i + 1)).map DayEntry.contributions).sum
        = acc + (((x :: xs).take (Nat.succ i + 1)).map DayEntry.contributions).sum
    rw [List.take_succ_cons, List.map_cons, List.sum_cons]
    omega

theorem pair_list_ext {α β : Type} :
    ∀ (u v : List (α × β)), u.map Prod.fst = v.map Prod.fst →
      u.map Prod.snd = v.map Prod.snd → u = v := by
  intro u
  induction u with
  | nil =>
    intro v h1 _
    cases v with
    | nil => rfl
    | cons b bs => simp at h1
  | cons a as ih =>
    intro v h1 h2
    cases v with
    | nil => simp at h1
    | cons b bs =>
      simp only [List.map_cons, List.cons.injEq] at h1 h2
      have hab : a = b := Prod.ext h1.1 h2.1
      rw [hab, ih bs h1.2 h2.2]

/-- C1 (counterexample): on the empty contribution map the stats
computation does NOT return averageDaily = 0 and maxDaily = 0.  The code
divides by `Object.values(contributions).length` = 0 (NaN or Infinity,
embedded as none) and takes `Math.max()` of no arguments (-Infinity,
embedded as none), so neither field is the finite value 0. -/
theorem computeStats_empty_counterexample :
    (computeStats [] 0).averageDaily ≠ some 0
    ∧ (computeStats [] 0).maxDaily ≠ some 0
    ∧ (computeStats [] 0).daysWithContributions = 0 := by
  decide

/-- C1 (amended): on the empty contribution map the stats computation
returns without raising, with activeDays = 0 and the upstream total passed
through, but averageDaily and maxDaily are the non-finite division-by-zero
and empty-max results (none), not the sentinel 0. -/
theorem computeStats_empty_amended (total : Nat) :
    computeStats [] total
      = { totalContributions := total, averageDaily := none
          daysWithContributions := 0, maxDaily := none } := rfl

/-- C2 (code bug): handleShareToPNG sets the isDownloading flag on entry,
and the try/finally resets it on the success and failure paths, but the
early return taken when the dashboard or share element is missing happens
before the try block, so on that path the flag is left true.  The first two
conjuncts evaluate the export routine at the failing inputs (a missing
element), the last two show the normal paths do reset the flag. -/
theorem handleShareToPNG_flag_paths :
    (handleShareToPNG "user" ⟨false, true, true⟩).isDownloading = true
    ∧ (handleShareToPNG "user" ⟨true, false, true⟩).isDownloading = true
    ∧ (handleShareToPNG "user" ⟨true, true, true⟩).isDownloading = false
    ∧ (handleShareToPNG "user" ⟨true, true, false⟩).isDownloading = false := by
  decide

/-- C5: in the cumulative series built by the renderer, the cumulative
value at each index i is the sum of contributions[0..i] inclusive; in
particular on the series [(d1, 2), (d2, 3), (d3, 0)] the cumulative values
are [2, 5, 5]. -/
theorem buildCumulativeSeries_prefixSums :
    (∀ l : List DayEntry,
      (buildCumulativeSeries l).map Prod.snd
        = (List.range l.length).map
            (fun i => ((l.take (i + 1)).map DayEntry.contributions).sum))
    ∧ (buildCumulativeSeries [⟨"d1", 2⟩, ⟨"d2", 3⟩, ⟨"d3", 0⟩]).map Prod.snd
        = [2, 5, 5] := by
  constructor
  · intro l
    have h := map_snd_mapWithIndexFrom
      (fun idx => (l.take (idx + 1)).foldl (fun sum curr => sum + curr.contributions) 0) l 0
    refine h.trans ?_
    refine List.map_congr_left ?_
    intro i _
    show (l.take (0 + i + 1)).foldl (fun sum curr => sum + curr.contributions) 0
        = ((l.take (i + 1)).map DayEntry.contributions).sum
    rw [Nat.zero_add, foldl_add_contributions, Nat.zero_add]
  · decide

/-- C7: the O(n) running-sum implementation of the cumulative series
(modelled from the spec) produces results identical to the O(n²)
slice-and-reduce computation in the component, on every daily series. -/
theorem runningCumulativeSeries_eq_buildCumulativeSeries (l : List DayEntry) :
    runningCumulativeSeries l = buildCumulativeSeries l := by
  refine pair_list_ext _ _ ?_ ?_
  · have h1 := map_fst_runningCumulativeFrom l 0
    have h2 := map_fst_mapWithIndexFrom
      (fun idx => (l.take (idx + 1)).foldl (fun sum curr => sum + curr.contributions) 0) l 0
    exact h1.trans h2.symm
  · have h1 := map_snd_runningCumulativeFrom l 0
    have h2 := map_snd_mapWithIndexFrom
      (fun idx => (l.take (idx + 1)).foldl (fun sum curr => sum + curr.contributions) 0) l 0
    refine h1.trans (Eq.trans ?_ h2.symm)
    refine List.map_congr_left ?_
    intro i _
    show 0 + ((l.take (i + 1)).map DayEntry.contributions).sum
        = (l.take (0 + i + 1)).foldl (fun sum curr => sum + curr.contributions) 0
    rw [Nat.zero_add, Nat.zero_add, foldl_add_contributions, Nat.zero_add]

/-- C8: processContributionData is embedded as a pure function — the
source reads nothing but its argument and writes nothing but the fresh
map it returns — so two calls on structurally equal raw inputs return
structurally equal outputs. -/
theorem processContributionData_deterministic (data₁ data₂ : ContributionData)
    (h : data₁ = data₂) :
    processContributionData data₁ = processContributionData data₂ :=
  congrArg processContributionData h

/-- Witness for C8 at a concrete raw response. -/
theorem processContributionData_deterministic_witness :
    processContributionData ⟨5, [⟨[⟨2, "2024-01-01"⟩, ⟨3, "2024-01-02"⟩]⟩]⟩
      = processContributionData ⟨5, [⟨[⟨2, "2024-01-01"⟩, ⟨3, "2024-01-02"⟩]⟩]⟩ :=
  processContributionData_deterministic _ _ rfl

/-- C9 (counterexample): the filename handed to the synthetic download
link is hardcoded to the year 2025 (Contribution.tsx line 100), so when
the configured data year is 2024 the produced name differs from the
claimed username-github-wrapped-year pattern. -/
theorem exportFilename_year_counterexample :
    (handleShareToPNG "alice" ⟨true, true, true⟩).download
        = some (exportFilename "alice")
    ∧ exportFilename "alice" ≠ claimedExportFilename "alice" 2024 := by
  decide

/-- C9 (amended): the download is always named
username-github-wrapped-2025.png; this coincides with the claimed
username-github-wrapped-year pattern exactly for year 2025, and a
download is only ever triggered with this hardcoded name. -/
theorem exportFilename_hardcoded_year (username : String) (env : ExportEnv) :
    exportFilename username = claimedExportFilename username 2025
    ∧ ((handleShareToPNG username env).download = none
       ∨ (handleShareToPNG username env).download = some (exportFilename username)) := by
  constructor
  · show username ++ "-github-wrapped-2025.png"
        = username ++ "-github-wrapped-" ++ toString (2025 : Nat) ++ ".png"
    rw [String.append_assoc, String.append_assoc]
    exact congrArg (fun t => username ++ t) (by decide)
  · obtain ⟨d, s, r⟩ := env
    cases d <;> cases s <;> cases r <;> simp [handleShareToPNG]

theorem keys_languageMapOf (repositories : List GitHubRepo) :
    keys (languageMapOf repositories) = firstOccur (allLanguageNames repositories) := by
  have hgen := keys_foldl_jsSet (fun l : RepoLanguage => l.name)
    (fun m l => (jsGet m l.name).getD 0 + l.size) (allRepoLanguages repositories) []
  have hnames : (allRepoLanguages repositories).map (fun l : RepoLanguage => l.name)
      = allLanguageNames repositories := by
    show ((repositories.map repoLanguagesOf).flatten).map RepoLanguage.name
        = allLanguageNames repositories
    rw [List.map_flatten, List.map_map]
    rfl
  have h2 : ((allRepoLanguages repositories).map (fun l : RepoLanguage => l.name)).foldl
      pushNew (keys []) = firstOccur (allLanguageNames repositories) := by
    rw [hnames]
    rfl
  rw [languageMapOf_eq_flat]
  exact hgen.trans h2

theorem countP_eq_of_nodup (l : List String) (a : String) (h : l.Nodup) :
    l.countP (fun n => decide (n = a)) = if a ∈ l then 1 else 0 := by
  induction l with
  | nil => simp
  | cons b bs ih =>
    rw [List.countP_cons]
    rcases List.nodup_cons.mp h with ⟨hb, hbs⟩
    by_cases hab : b = a
    · subst hab
      simp [ih hbs, hb]
    · have hab' : ¬ (a = b) := fun hh => hab hh.symm
      simp [hab, hab', ih hbs]

/-- C3: for a well-formed raw contribution response — one whose dates are
pairwise distinct, as the upstream calendar guarantees — the
contributionMap built by processContributionData has exactly one key per
contributionDay across all weeks, and totalContributions is the raw total
passed through unchanged. -/
theorem processContributionData_spec (data : ContributionData)
    (h : (allDates data).Nodup) :
    (processContributionData data).contributionMap.length
        = (data.weeks.map (fun w => w.contributionDays.length)).sum
    ∧ (processContributionData data).totalContributions = data.totalContributions := by
  constructor
  · have hgen := keys_foldl_jsSet (fun d : ContributionDay => d.date)
      (fun _ d => d.contributionCount)
      ((data.weeks.map ContributionWeek.contributionDays).flatten) []
    have h2 : (((data.weeks.map ContributionWeek.contributionDays).flatten).map
        (fun d : ContributionDay => d.date)).foldl pushNew (keys [])
          = allDates data := by
      show (allDates data).foldl pushNew [] = allDates data
      rw [foldl_pushNew_eq_append (allDates data) [] (by simp) h]
      simp
    have hkeys : keys (processContributionData data).contributionMap = allDates data := by
      rw [contributionMap_eq_flat]
      exact hgen.trans h2
    have hlen : (processContributionData data).contributionMap.length
        = (allDates data).length := by
      have hk := congrArg List.length hkeys
      simpa [keys] using hk
    rw [hlen]
    show (((data.weeks.map ContributionWeek.contributionDays).flatten).map
        ContributionDay.date).length = _
    rw [List.length_map, List.length_flatten, List.map_map]
    rfl
  · rfl

/-- Witness for C3 at a concrete two-week response with distinct dates. -/
theorem processContributionData_spec_witness :
    (allDates ⟨8, [⟨[⟨3, "2024-01-01"⟩, ⟨0, "2024-01-02"⟩]⟩, ⟨[⟨5, "2024-01-03"⟩]⟩]⟩).Nodup
    ∧ ((processContributionData
          ⟨8, [⟨[⟨3, "2024-01-01"⟩, ⟨0, "2024-01-02"⟩]⟩,
               ⟨[⟨5, "2024-01-03"⟩]⟩]⟩).contributionMap.length
        = (([⟨[⟨3, "2024-01-01"⟩, ⟨0, "2024-01-02"⟩]⟩, ⟨[⟨5, "2024-01-03"⟩]⟩] :
              List ContributionWeek).map (fun w => w.contributionDays.length)).sum
       ∧ (processContributionData
          ⟨8, [⟨[⟨3, "2024-01-01"⟩, ⟨0, "2024-01-02"⟩]⟩,
               ⟨[⟨5, "2024-01-03"⟩]⟩]⟩).totalContributions = 8) :=
  ⟨by decide, processContributionData_spec _ (by decide)⟩

/-- C4: the topLanguages output of processRepoLanguages is sorted by
descending summed size, and equal-size entries keep the entry order of
the accumulation map, whose key order is first-encounter order across
repositories.  The second conjunct is the stability statement — for every
size s, the equal-size slice of the output is exactly the equal-size
slice of the accumulation map, in map order — and the third identifies
the map's key order with first-encounter order of the language names. -/
theorem processRepoLanguages_ranking (repositories : List GitHubRepo) :
    ((processRepoLanguages repositories).topLanguages).Pairwise
        (fun a b => b.size ≤ a.size)
    ∧ (∀ s : Nat,
        ((processRepoLanguages repositories).topLanguages).filter (fun l => l.size == s)
          = ((languageMapOf repositories).filter (fun p => p.2 == s)).map
              (fun p => ⟨p.1, p.2⟩))
    ∧ keys (languageMapOf repositories) = firstOccur (allLanguageNames repositories) := by
  refine ⟨?_, ?_, keys_languageMapOf repositories⟩
  · show ((sortDesc (languageMapOf repositories)).map
        (fun p => (⟨p.1, p.2⟩ : RepoLanguage))).Pairwise (fun a b => b.size ≤ a.size)
    rw [List.pairwise_map]
    exact sorted_sortDesc _
  · intro s
    show ((sortDesc (languageMapOf repositories)).map
        (fun p => (⟨p.1, p.2⟩ : RepoLanguage))).filter (fun l => l.size == s) = _
    rw [List.filter_map]
    show ((sortDesc (languageMapOf repositories)).filter (fun p => p.2 == s)).map
        (fun p => (⟨p.1, p.2⟩ : RepoLanguage)) = _
    rw [filter_sortDesc]

/-- C6: fetchTopLanguages on the sample listing [Go, Go, null, Rust]
yields [(Go, 2), (Rust, 1)]; in general the result has at most 5 entries
and is sorted by descending repo count, null languages are ignored
entirely, and the accumulated count of every non-empty language name is
exactly the number of repositories reporting it (a name missing from the
map has count 0). -/
theorem fetchTopLanguages_spec :
    fetchTopLanguages [some "Go", some "Go", none, some "Rust"]
        = [("Go", 2), ("Rust", 1)]
    ∧ (∀ repos : List (Option String), (fetchTopLanguages repos).length ≤ 5)
    ∧ (∀ repos : List (Option String),
        (fetchTopLanguages repos).Pairwise (fun a b => b.2 ≤ a.2))
    ∧ (∀ pre post : List (Option String),
        fetchTopLanguages (pre ++ none :: post) = fetchTopLanguages (pre ++ post))
    ∧ (∀ (repos : List (Option String)) (k : String),
        jsGet (languageCountOf repos) k
          = if k = "" ∨ occurrences k repos = 0 then none
            else some (occurrences k repos)) := by
  refine ⟨by decide, ?_, ?_, ?_, ?_⟩
  · intro repos
    exact List.length_take_le 5 _
  · intro repos
    exact List.Pairwise.sublist (List.take_sublist 5 _) (sorted_sortDesc _)
  · intro pre post
    show (sortDesc (languageCountOf (pre ++ none :: post))).take 5 = _
    have hmap : languageCountOf (pre ++ none :: post) = languageCountOf (pre ++ post) := by
      show (pre ++ none :: post).foldl countStep [] = (pre ++ post).foldl countStep []
      rw [List.foldl_append, List.foldl_append, List.foldl_cons]
      rfl
    rw [hmap]
    rfl
  · intro repos k
    by_cases hk : k = ""
    · subst hk
      rw [if_pos (Or.inl rfl)]
      show jsGet (repos.foldl countStep []) "" = none
      rw [countFold_empty_key]
      rfl
    · have hmain := countFold_get k hk repos []
      show jsGet (repos.foldl countStep []) k = _
      rw [hmain]
      by_cases h0 : occurrences k repos = 0
      · rw [if_pos h0, if_pos (Or.inr h0)]
        rfl
      · rw [if_neg h0, if_neg (not_or.mpr ⟨hk, h0⟩)]
        simp [jsGet]

/-- C10: the sizes in the topLanguages output of processRepoLanguages sum
to the total of all language-edge sizes over all repositories, and every
language name occurring in some repository's edges occurs exactly once in
the output (and a name occurring in no repository, zero times). -/
theorem processRepoLanguages_conservation (repositories : List GitHubRepo) (lang : String) :
    (((processRepoLanguages repositories).topLanguages).map RepoLanguage.size).sum
      = (repositories.map (fun r => ((r.languages.edges).map LangEdge.size).sum)).sum
    ∧ (((processRepoLanguages repositories).topLanguages).map RepoLanguage.name).countP
        (fun n => decide (n = lang))
      = if lang ∈ allLanguageNames repositories then 1 else 0 := by
  have haccsum : ∀ (ps : List RepoLanguage) (m : List (String × Nat)),
      ((ps.foldl langStep m).map Prod.snd).sum
        = (m.map Prod.snd).sum + (ps.map RepoLanguage.size).sum := by
    intro ps
    induction ps with
    | nil => intro m; simp
    | cons p rest ih =>
      intro m
      rw [List.foldl_cons, ih]
      have hstep : ((langStep m p).map Prod.snd).sum = (m.map Prod.snd).sum + p.size :=
        sum_jsSet_add m p.name p.size
      rw [hstep]
      simp only [List.map_cons, List.sum_cons]
      omega
  constructor
  · have hsize : ((processRepoLanguages repositories).topLanguages).map RepoLanguage.size
        = (sortDesc (languageMapOf repositories)).map Prod.snd := by
      show ((sortDesc (languageMapOf repositories)).map
          (fun p => (⟨p.1, p.2⟩ : RepoLanguage))).map RepoLanguage.size = _
      rw [List.map_map]
      rfl
    have hperm : ((sortDesc (languageMapOf repositories)).map Prod.snd).Perm
        ((languageMapOf repositories).map Prod.snd) :=
      (perm_sortDesc _).map Prod.snd
    have hsum : ((languageMapOf repositories).map Prod.snd).sum
        = ((allRepoLanguages repositories).map RepoLanguage.size).sum := by
      rw [languageMapOf_eq_flat]
      simpa using haccsum (allRepoLanguages repositories) []
    have hflat : ((allRepoLanguages repositories).map RepoLanguage.size).sum
        = (repositories.map (fun r => ((r.languages.edges).map LangEdge.size).sum)).sum := by
      show (((repositories.map repoLanguagesOf).flatten).map RepoLanguage.size).sum = _
      rw [List.map_flatten, List.sum_flatten, List.map_map, List.map_map]
      refine congrArg List.sum (List.map_congr_left ?_)
      intro r _
      show ((repoLanguagesOf r).map RepoLanguage.size).sum = _
      rw [repoLanguagesOf, List.map_map]
      rfl
    rw [hsize]
    exact (hperm.sum_eq).trans (hsum.trans hflat)
  · have hname : ((processRepoLanguages repositories).topLanguages).map RepoLanguage.name
        = (sortDesc (languageMapOf repositories)).map Prod.fst := by
      show ((sortDesc (languageMapOf repositories)).map
          (fun p => (⟨p.1, p.2⟩ : RepoLanguage))).map RepoLanguage.name = _
      rw [List.map_map]
      rfl
    have hpermf : ((sortDesc (languageMapOf repositories)).map Prod.fst).Perm
        (keys (languageMapOf repositories)) :=
      (perm_sortDesc _).map Prod.fst
    have hnodup : (firstOccur (allLanguageNames repositories)).Nodup :=
      nodup_foldl_pushNew _ [] List.nodup_nil
    have hmemiff : lang ∈ firstOccur (allLanguageNames repositories)
        ↔ lang ∈ allLanguageNames repositories := by
      rw [firstOccur]
      rw [mem_foldl_pushNew]
      simp
    have hcnt : (keys (languageMapOf repositories)).countP (fun n => decide (n = lang))
        = if lang ∈ allLanguageNames repositories then 1 else 0 := by
      rw [keys_languageMapOf]
      rw [countP_eq_of_nodup _ lang hnodup]
      by_cases hmem : lang ∈ allLanguageNames repositories
      · rw [if_pos (hmemiff.mpr hmem), if_pos hmem]
      · rw [if_neg (fun hc => hmem (hmemiff.mp hc)), if_neg hmem]
    rw [hname]
    exact (hpermf.countP_eq _).trans hcnt

end GitWrapped
